import Mathlib

/-!
Verification of the candidate pipeline of `src/app.py` (leonar-scoring).

The Python source is shallowly embedded: each Python function used by the
claims is translated into an executable Lean definition operating on
`List Char` / `String`, with Python dictionaries for candidate profiles
modelled either as structures carrying the fields the code reads
(`Option String` models a key that may be absent or `None`) or, where a
claim is about dictionary semantics itself, as association lists.
-/

namespace LeonarScoring

/-! ### Python string primitives

`isPySpace` models the ASCII part of Python's `str.isspace` whitespace
class (space, tab, newline, carriage return, vertical tab, form feed),
which is what `str.strip()`, `str.split()` and the `\s` regex class use.
`pyLowerChar` models Python's `str.lower` on the ASCII and Latin-1
ranges (the uppercase Latin-1 letters `À`..`Þ` except `×` map to their
lowercase forms 32 code points higher), which covers every character the
repository manipulates. -/

def isPySpace (c : Char) : Bool :=
  c == ' ' || c == '\t' || c == '\n' || c == '\x0d' || c == '\x0b' || c == '\x0c'

def pyLowerChar (c : Char) : Char :=
  if 'A' ≤ c && c ≤ 'Z' then Char.ofNat (c.toNat + 32)
  else if 0xC0 ≤ c.toNat && c.toNat ≤ 0xDE && c.toNat != 0xD7 then Char.ofNat (c.toNat + 32)
  else c

def pyLower (s : String) : String := String.mk (s.data.map pyLowerChar)

/-- `l.dropWhile ws` from the left, then from the right: Python `str.strip()`. -/
def pyStripL (l : List Char) : List Char :=
  (((l.dropWhile isPySpace).reverse.dropWhile isPySpace)).reverse

def pyStrip (s : String) : String := String.mk (pyStripL s.data)

/-- Python `x or ""` applied to an optional string: `None` and `""` both give `""`. -/
def orEmpty : Option String → String
  | none => ""
  | some s => s

/-! ### Profile records

A profile is a provider JSON object; the pipeline reads the keys below
via `p.get(...)`.  A missing key and an explicit `None` behave
identically under `p.get(k) or ""`, so both are modelled as `none`. -/

structure Profile where
  profile_id : Option String := none
  first_name : Option String := none
  last_name : Option String := none
  linkedin_url : Option String := none
  location : Option String := none
  deriving DecidableEq, Repr

/-- `p.get("linkedin_url") or ""` (app.py line 222). -/
def urlOf (p : Profile) : String := orEmpty p.linkedin_url

/-- `(p.get(k) or "").lower().strip()` (app.py lines 223-224). -/
def normName (s : Option String) : String := pyStrip (pyLower (orEmpty s))

/-- `f"{fn} {ln}"` with `fn`, `ln` lowercased and stripped (app.py line 225). -/
def compName (p : Profile) : String := normName p.first_name ++ " " ++ normName p.last_name

/-! ### Deduplication (app.py `deduplicate_profiles`, lines 216-237) -/

def dedupGo (seenU seenN : List String) : List Profile → List Profile
  | [] => []
  | p :: rest =>
    if urlOf p ≠ "" ∧ urlOf p ∈ seenU then dedupGo seenU seenN rest
    else if pyStrip (compName p) ≠ "" ∧ compName p ∈ seenN then dedupGo seenU seenN rest
    else
      p :: dedupGo (if urlOf p ≠ "" then urlOf p :: seenU else seenU)
        (if pyStrip (compName p) ≠ "" then compName p :: seenN else seenN) rest

def deduplicate_profiles (profiles : List Profile) : List Profile :=
  dedupGo [] [] profiles

/-! Helper lemmas for deduplication. -/

theorem dedupGo_no_url (u : String) (hu : u ≠ "") :
    ∀ (l : List Profile) (seenU seenN : List String), u ∈ seenU →
      ∀ q ∈ dedupGo seenU seenN l, urlOf q ≠ u := by
  intro l
  induction l with
  | nil => intro seenU seenN _ q hq; simp [dedupGo] at hq
  | cons p rest ih =>
    intro seenU seenN hmem q hq
    rw [dedupGo] at hq
    split at hq
    · exact ih seenU seenN hmem q hq
    · split at hq
      · exact ih seenU seenN hmem q hq
      · rw [List.mem_cons] at hq
        rcases hq with hq | hq
        · subst hq
          intro hurl
          rename_i hskip _
          exact hskip ⟨hurl ▸ hu, hurl ▸ hmem⟩
        · refine ih _ _ ?_ q hq
          split
          · exact List.mem_cons_of_mem _ hmem
          · exact hmem

theorem dedupGo_no_name (n : String) (hn : pyStrip n ≠ "") :
    ∀ (l : List Profile) (seenU seenN : List String), n ∈ seenN →
      ∀ q ∈ dedupGo seenU seenN l, compName q ≠ n := by
  intro l
  induction l with
  | nil => intro seenU seenN _ q hq; simp [dedupGo] at hq
  | cons p rest ih =>
    intro seenU seenN hmem q hq
    rw [dedupGo] at hq
    split at hq
    · exact ih seenU seenN hmem q hq
    · split at hq
      · exact ih seenU seenN hmem q hq
      · rw [List.mem_cons] at hq
        rcases hq with hq | hq
        · subst hq
          intro hname
          rename_i hskip
          exact hskip ⟨hname ▸ hn, hname ▸ hmem⟩
        · refine ih _ _ ?_ q hq
          split
          · exact List.mem_cons_of_mem _ hmem
          · exact hmem

theorem dedupGo_pairwise_url :
    ∀ (l : List Profile) (seenU seenN : List String),
      (dedupGo seenU seenN l).Pairwise fun a b => urlOf a = urlOf b → urlOf a = "" := by
  intro l
  induction l with
  | nil => intro seenU seenN; simp [dedupGo]
  | cons p rest ih =>
    intro seenU seenN
    rw [dedupGo]
    split
    · exact ih _ _
    · split
      · exact ih _ _
      · refine List.Pairwise.cons ?_ (ih _ _)
        intro q hq heq
        by_contra hne
        have hmem : urlOf p ∈ (if urlOf p ≠ "" then urlOf p :: seenU else seenU) := by
          simp [hne]
        exact dedupGo_no_url (urlOf p) hne rest _ _ hmem q hq heq.symm

theorem dedupGo_pairwise_name :
    ∀ (l : List Profile) (seenU seenN : List String),
      (dedupGo seenU seenN l).Pairwise
        fun a b => compName a = compName b → pyStrip (compName a) = "" := by
  intro l
  induction l with
  | nil => intro seenU seenN; simp [dedupGo]
  | cons p rest ih =>
    intro seenU seenN
    rw [dedupGo]
    split
    · exact ih _ _
    · split
      · exact ih _ _
      · refine List.Pairwise.cons ?_ (ih _ _)
        intro q hq heq
        by_contra hne
        have hmem : compName p ∈ (if pyStrip (compName p) ≠ "" then compName p :: seenN else seenN) := by
          simp [hne]
        exact dedupGo_no_name (compName p) hne rest _ _ hmem q hq heq.symm

theorem dedupGo_sublist :
    ∀ (l : List Profile) (seenU seenN : List String),
      (dedupGo seenU seenN l).Sublist l := by
  intro l
  induction l with
  | nil => intro seenU seenN; simp [dedupGo]
  | cons p rest ih =>
    intro seenU seenN
    rw [dedupGo]
    split
    · exact (ih _ _).cons p
    · split
      · exact (ih _ _).cons p
      · exact (ih _ _).cons₂ p

theorem dedupGo_count_blank (p : Profile) (hu : urlOf p = "") (hn : pyStrip (compName p) = "") :
    ∀ (l : List Profile) (seenU seenN : List String),
      (dedupGo seenU seenN l).count p = l.count p := by
  intro l
  induction l with
  | nil => intro seenU seenN; simp [dedupGo]
  | cons q rest ih =>
    intro seenU seenN
    rw [dedupGo]
    split
    · rename_i hskip
      have hne : q ≠ p := by
        intro h; subst h; exact hskip.1 hu
      rw [List.count_cons_of_ne (fun h => hne h.symm), ih]
    · split
      · rename_i hskip
        have hne : q ≠ p := by
          intro h; subst h; exact hskip.1 hn
        rw [List.count_cons_of_ne (fun h => hne h.symm), ih]
      · rw [List.count_cons, List.count_cons, ih]

/-- C1: the output of `deduplicate_profiles` has no two entries sharing a
non-empty `linkedin_url`, no two entries sharing a non-empty normalized
full name (`lower().strip()` of first and last name joined by a space),
is a subsequence of the input (first-seen wins, order preserved, length
bounded by the input length), and a profile with empty URL and blank
composite name is never removed (its multiplicity is preserved). -/
theorem dedup_correct (profiles : List Profile) :
    ((deduplicate_profiles profiles).Pairwise fun a b => urlOf a = urlOf b → urlOf a = "")
    ∧ ((deduplicate_profiles profiles).Pairwise
        fun a b => compName a = compName b → pyStrip (compName a) = "")
    ∧ (deduplicate_profiles profiles).Sublist profiles
    ∧ ∀ p : Profile, urlOf p = "" → pyStrip (compName p) = "" →
        (deduplicate_profiles profiles).count p = profiles.count p := by
  refine ⟨dedupGo_pairwise_url profiles [] [], dedupGo_pairwise_name profiles [] [],
    dedupGo_sublist profiles [] [], fun p hu hn => dedupGo_count_blank p hu hn profiles [] []⟩

/-- Witness for C1: the theorem applied to a concrete two-profile list, with
the count-preservation hypotheses discharged on a blank profile. -/
theorem dedup_correct_witness :
    ((deduplicate_profiles [{ linkedin_url := some "u" }, ({} : Profile)]).Pairwise
        fun a b => urlOf a = urlOf b → urlOf a = "")
    ∧ (deduplicate_profiles [{ linkedin_url := some "u" }, ({} : Profile)]).Sublist
        [{ linkedin_url := some "u" }, ({} : Profile)]
    ∧ (deduplicate_profiles [{ linkedin_url := some "u" }, ({} : Profile)]).count ({} : Profile)
        = ([{ linkedin_url := some "u" }, ({} : Profile)]).count ({} : Profile) := by
  obtain ⟨h1, _h2, h3, h4⟩ := dedup_correct [{ linkedin_url := some "u" }, ({} : Profile)]
  exact ⟨h1, h3, h4 ({} : Profile) (by decide) (by decide)⟩

/-! ### Daily LinkedIn usage counter (app.py lines 22-48)

The persisted JSON file is modelled as `UsageStorage`: absent file,
unparseable/except-raising content, or a stored `{date, count}` record.
`_save_usage` on a writable filesystem stores the record; the pipeline's
page loop (app.py lines 691-729) calls `add_linkedin_count(len(profiles))`
once per successful page, before any filtering. -/

inductive UsageStorage where
  | missing
  | corrupt
  | stored (date : String) (count : Int)
  deriving DecidableEq, Repr

structure UsageData where
  date : String
  count : Int
  deriving DecidableEq, Repr

/-- `_load_usage` (app.py lines 24-33): return the stored record only when
the file exists, parses, and its date equals today; otherwise a fresh
zero counter for today. -/
def loadUsage (today : String) : UsageStorage → UsageData
  | .stored d c => if d = today then ⟨d, c⟩ else ⟨today, 0⟩
  | _ => ⟨today, 0⟩

/-- `_save_usage` on a writable filesystem (app.py lines 35-38). -/
def saveUsage (u : UsageData) : UsageStorage := .stored u.date u.count

/-- `get_linkedin_count` (app.py lines 42-43). -/
def getLinkedinCount (today : String) (s : UsageStorage) : Int :=
  (loadUsage today s).count

/-- `add_linkedin_count` (app.py lines 45-48). -/
def addLinkedinCount (today : String) (s : UsageStorage) (n : Nat) : UsageStorage :=
  saveUsage ⟨(loadUsage today s).date, (loadUsage today s).count + n⟩

/-- The counter state after the retrieval loop has processed a list of
successful pages, incrementing by each page's returned-profile count
(app.py line 713, before the `already_in_project` filter on line 716). -/
def runPages (today : String) (s0 : UsageStorage) (pages : List Nat) : UsageStorage :=
  pages.foldl (addLinkedinCount today) s0

def storedDate : UsageStorage → Option String
  | .stored d _ => some d
  | _ => none

theorem loadUsage_date (today : String) (s : UsageStorage) :
    (loadUsage today s).date = today := by
  cases s with
  | stored d c =>
    simp only [loadUsage]
    split
    · rename_i h; exact h
    · rfl
  | missing => rfl
  | corrupt => rfl

theorem runPages_count (today : String) :
    ∀ (pages : List Nat) (s0 : UsageStorage),
      getLinkedinCount today (runPages today s0 pages)
        = getLinkedinCount today s0 + (pages.sum : Int) := by
  intro pages
  induction pages with
  | nil => intro s0; simp [runPages]
  | cons n rest ih =>
    intro s0
    have hstep : getLinkedinCount today (addLinkedinCount today s0 n)
        = getLinkedinCount today s0 + (n : Int) := by
      have h1 : addLinkedinCount today s0 n
          = UsageStorage.stored today ((loadUsage today s0).count + (n : Int)) := by
        rw [addLinkedinCount, saveUsage]
        simp [loadUsage_date]
      rw [h1]
      simp [getLinkedinCount, loadUsage]
    calc getLinkedinCount today (runPages today (addLinkedinCount today s0 n) rest)
        = getLinkedinCount today (addLinkedinCount today s0 n) + (rest.sum : Int) := ih _
      _ = getLinkedinCount today s0 + ((n + rest.sum : Nat) : Int) := by
          rw [hstep]; push_cast; ring

/-- C2: the counter resets to 0 whenever the stored date differs from
today (missing and corrupt storage included), and within one day, after
pages totaling `P` returned profiles have been counted starting from a
zero counter, reading the counter yields exactly `P` (increments
accumulate, no mid-day reset). -/
theorem usage_counter_correct :
    (∀ (today : String) (s : UsageStorage), storedDate s ≠ some today →
      loadUsage today s = ⟨today, 0⟩)
    ∧ (∀ (today : String) (s0 : UsageStorage) (pages : List Nat),
        getLinkedinCount today s0 = 0 →
        getLinkedinCount today (runPages today s0 pages) = (pages.sum : Int)) := by
  constructor
  · intro today s hne
    cases s with
    | missing => rfl
    | corrupt => rfl
    | stored d c =>
      simp only [loadUsage]
      rw [if_neg]
      intro h
      exact hne (by simp [storedDate, h])
  · intro today s0 pages h0
    rw [runPages_count, h0, zero_add]

/-- Witness for C2: a stale stored record resets, and two pages of 25 and
5 profiles starting from missing storage yield a count of 30. -/
theorem usage_counter_correct_witness :
    loadUsage "2026-10-12" (.stored "2026-10-11" 700) = ⟨"2026-10-12", 0⟩
    ∧ getLinkedinCount "2026-10-12" (runPages "2026-10-12" .missing [25, 5]) = 30 := by
  refine ⟨usage_counter_correct.1 "2026-10-12" (.stored "2026-10-11" 700) (by decide), ?_⟩
  have h := usage_counter_correct.2 "2026-10-12" .missing [25, 5] rfl
  simpa using h

/-! ### Excluding profiles already in the project
(app.py `exclude_existing_profiles`, lines 239-268) -/

structure EntryContact where
  first_name : Option String := none
  last_name : Option String := none
  linkedin_profile : Option String := none
  deriving DecidableEq, Repr

structure ProjectEntry where
  contact : EntryContact := {}
  deriving DecidableEq, Repr

/-- Normalized composite name of an entry's contact (app.py lines 246-248). -/
def entryName (e : ProjectEntry) : String :=
  normName e.contact.first_name ++ " " ++ normName e.contact.last_name

/-- `contact.get("linkedin_profile", "") or ""` (app.py line 249). -/
def entryUrl (e : ProjectEntry) : String := orEmpty e.contact.linkedin_profile

/-- The `existing_names` set (membership view; app.py lines 250-251). -/
def existingNames (entries : List ProjectEntry) : List String :=
  (entries.filter fun e => decide (pyStrip (entryName e) ≠ "")).map entryName

/-- The `existing_urls` set (membership view; app.py lines 252-253). -/
def existingUrls (entries : List ProjectEntry) : List String :=
  (entries.filter fun e => decide (entryUrl e ≠ "")).map entryUrl

def exGo (names urls : List String) : List Profile → List Profile × Nat
  | [] => ([], 0)
  | p :: rest =>
    if (urlOf p ≠ "" ∧ urlOf p ∈ urls) ∨ (pyStrip (compName p) ≠ "" ∧ compName p ∈ names)
    then ((exGo names urls rest).1, (exGo names urls rest).2 + 1)
    else (p :: (exGo names urls rest).1, (exGo names urls rest).2)

def exclude_existing_profiles (profiles : List Profile) (entries : List ProjectEntry) :
    List Profile × Nat :=
  exGo (existingNames entries) (existingUrls entries) profiles

/-- The claim's matching rule, stated over the entries themselves: the
profile shares a non-empty LinkedIn URL or a non-empty normalized full
name with some existing project entry. -/
def matchesExisting (p : Profile) (entries : List ProjectEntry) : Prop :=
  (urlOf p ≠ "" ∧ ∃ e ∈ entries, entryUrl e = urlOf p)
  ∨ (pyStrip (compName p) ≠ "" ∧ ∃ e ∈ entries, entryName e = compName p)

theorem exGo_spec (names urls : List String) :
    ∀ l : List Profile,
      (∀ p ∈ (exGo names urls l).1,
        ¬ ((urlOf p ≠ "" ∧ urlOf p ∈ urls) ∨ (pyStrip (compName p) ≠ "" ∧ compName p ∈ names)))
      ∧ (exGo names urls l).1.length + (exGo names urls l).2 = l.length := by
  intro l
  induction l with
  | nil => exact ⟨by simp [exGo], by simp [exGo]⟩
  | cons p rest ih =>
    by_cases hc :
        (urlOf p ≠ "" ∧ urlOf p ∈ urls) ∨ (pyStrip (compName p) ≠ "" ∧ compName p ∈ names)
    · refine ⟨?_, ?_⟩
      · intro q hq
        rw [exGo, if_pos hc] at hq
        exact ih.1 q hq
      · rw [exGo, if_pos hc]
        simpa [Nat.add_assoc] using congrArg (· + 1) ih.2
    · refine ⟨?_, ?_⟩
      · intro q hq
        rw [exGo, if_neg hc] at hq
        rw [List.mem_cons] at hq
        rcases hq with hq | hq
        · subst hq; exact hc
        · exact ih.1 q hq
      · rw [exGo, if_neg hc]
        simpa [Nat.succ_add] using congrArg Nat.succ ih.2

theorem mem_existingUrls (entries : List ProjectEntry) (u : String) (hu : u ≠ "") :
    u ∈ existingUrls entries ↔ ∃ e ∈ entries, entryUrl e = u := by
  simp only [existingUrls, List.mem_map, List.mem_filter, decide_eq_true_eq]
  constructor
  · rintro ⟨e, ⟨he, _⟩, heq⟩; exact ⟨e, he, heq⟩
  · rintro ⟨e, he, heq⟩; exact ⟨e, ⟨he, heq ▸ hu⟩, heq⟩

theorem mem_existingNames (entries : List ProjectEntry) (n : String)
    (hn : pyStrip n ≠ "") :
    n ∈ existingNames entries ↔ ∃ e ∈ entries, entryName e = n := by
  simp only [existingNames, List.mem_map, List.mem_filter, decide_eq_true_eq]
  constructor
  · rintro ⟨e, ⟨he, _⟩, heq⟩; exact ⟨e, he, heq⟩
  · rintro ⟨e, he, heq⟩; exact ⟨e, ⟨he, heq ▸ hn⟩, heq⟩

/-- C6: every profile matching an existing project entry by non-empty
URL or by non-empty normalized name is absent from the excluder's
output, and the reported skipped count equals the number removed:
output length + skipped = input length. -/
theorem exclude_existing_correct (profiles : List Profile) (entries : List ProjectEntry) :
    (∀ p ∈ (exclude_existing_profiles profiles entries).1, ¬ matchesExisting p entries)
    ∧ (exclude_existing_profiles profiles entries).1.length
        + (exclude_existing_profiles profiles entries).2 = profiles.length := by
  have h := exGo_spec (existingNames entries) (existingUrls entries) profiles
  refine ⟨?_, h.2⟩
  intro p hp hm
  refine h.1 p hp ?_
  rcases hm with ⟨hne, hex⟩ | ⟨hne, hex⟩
  · exact Or.inl ⟨hne, (mem_existingUrls entries _ hne).mpr hex⟩
  · exact Or.inr ⟨hne, (mem_existingNames entries _ hne).mpr hex⟩

/-- Witness for C6: a one-profile list whose URL matches the single
existing entry is fully removed, with a skipped count of 1. -/
theorem exclude_existing_correct_witness :
    (∀ p ∈ (exclude_existing_profiles [{ linkedin_url := some "u" }]
        [{ contact := { linkedin_profile := some "u" } }]).1,
      ¬ matchesExisting p [{ contact := { linkedin_profile := some "u" } }])
    ∧ (exclude_existing_profiles [{ linkedin_url := some "u" }]
        [{ contact := { linkedin_profile := some "u" } }]).1.length
        + (exclude_existing_profiles [{ linkedin_url := some "u" }]
            [{ contact := { linkedin_profile := some "u" } }]).2 = 1 :=
  exclude_existing_correct [{ linkedin_url := some "u" }]
    [{ contact := { linkedin_profile := some "u" } }]

/-! ### Provider requests and the 429 retry policy
(`leonar_request`, app.py lines 70-110; `add_profiles_to_project`,
lines 174-179; `add_note_to_contact`, lines 203-211)

A response is modelled by its status code, the optional parsed
`X-RateLimit-Remaining` header, and the parsed error body.  `leonarGo`
returns the call's outcome together with the list of sleep durations
performed, in order (the 2-second low-quota pause and the `2**(attempt+1)`
backoff sleeps). -/

structure LeonarResponse where
  status : Nat
  rlRemaining : Option Int := none
  errorCode : String := ""
  errorMessage : String := ""
  deriving DecidableEq, Repr

/-- `requests.Response.ok`: status below 400. -/
def LeonarResponse.isOk (r : LeonarResponse) : Bool := r.status < 400

inductive LeonarError where
  | insufficientScope (msg : String)
  | invalidApiKey
  | billingRequired
  | planUpgradeRequired
  | validationError (msg : String)
  | notFound (msg : String)
  | otherError (status : Nat) (code msg : String)
  | rateLimitExhausted
  deriving DecidableEq, Repr

/-- Error classification by response-embedded code (app.py lines 85-106). -/
def classifyError (r : LeonarResponse) : LeonarError :=
  if r.errorCode = "insufficient_scope" then .insufficientScope r.errorMessage
  else if r.errorCode = "invalid_api_key" then .invalidApiKey
  else if r.errorCode = "billing_required" then .billingRequired
  else if r.errorCode = "plan_upgrade_required" then .planUpgradeRequired
  else if r.errorCode = "validation_error" then .validationError r.errorMessage
  else if r.errorCode = "not_found" then .notFound r.errorMessage
  else .otherError r.status r.errorCode r.errorMessage

/-- The 2-second pause when fewer than 10 requests remain (app.py lines 76-78). -/
def preSleep (r : LeonarResponse) : List Nat :=
  match r.rlRemaining with
  | some k => if k < 10 then [2] else []
  | none => []

/-- The `for attempt in range(5)` loop of `leonar_request`; `resp i` is the
response to the `i`-th request.  Exhausting the fuel is the final
`raise` on line 110. -/
def leonarGo (resp : Nat → LeonarResponse) :
    Nat → Nat → Except LeonarError LeonarResponse × List Nat
  | _, 0 => (.error .rateLimitExhausted, [])
  | attempt, fuel + 1 =>
    if (resp attempt).status == 429 then
      ((leonarGo resp (attempt + 1) fuel).1,
        preSleep (resp attempt) ++ 2 ^ (attempt + 1) :: (leonarGo resp (attempt + 1) fuel).2)
    else if (resp attempt).isOk then (.ok (resp attempt), preSleep (resp attempt))
    else (.error (classifyError (resp attempt)), preSleep (resp attempt))

def leonar_request (resp : Nat → LeonarResponse) :
    Except LeonarError LeonarResponse × List Nat :=
  leonarGo resp 0 5

structure AddResult where
  added : Int := 0
  contact_ids : List String := []
  deriving DecidableEq, Repr

structure HttpAddResponse where
  status : Nat
  payload : AddResult := {}
  deriving DecidableEq, Repr

/-- `add_profiles_to_project` (app.py lines 174-179): a single bare
`requests.post` followed by `raise_for_status()` — it does NOT go
through `leonar_request`, so it performs no retry and no backoff sleep;
a non-2xx status (429 included) raises immediately with that status. -/
def add_profiles_to_project (resp : HttpAddResponse) : Except Nat AddResult :=
  if resp.status < 400 then .ok resp.payload else .error resp.status

/-- Counterexample for C3 as stated: a single throttling (429) response to
`add_profiles_to_project` — a call against the sourcing provider — is
fatal immediately, with no retry and no backoff; by contrast the same
first-response-429 server seen through `leonar_request` is retried after
a 2-second sleep and the call succeeds. -/
theorem retry_policy_counterexample :
    add_profiles_to_project ⟨429, {}⟩ = Except.error 429
    ∧ leonar_request (fun i => if i = 0 then ⟨429, none, "", ""⟩ else ⟨200, none, "", ""⟩)
        = (Except.ok ⟨200, none, "", ""⟩, [2]) := by
  constructor
  · rfl
  · rfl

/-- C3 amended: the 5-attempt retry policy with exponential backoff
2, 4, 8, 16, 32 seconds and a fatal error after exhaustion holds for the
calls routed through `leonar_request` (account listing, location lookup,
LinkedIn search, sourcing search), but not for every provider call:
`add_profiles_to_project` (like `add_note_to_contact`) issues one bare
request and raises immediately on any 429. -/
theorem retry_policy_amended (resp : Nat → LeonarResponse)
    (h429 : ∀ i, i < 5 → (resp i).status = 429)
    (hrl : ∀ i, i < 5 → (resp i).rlRemaining = none) :
    leonar_request resp = (.error .rateLimitExhausted, [2, 4, 8, 16, 32])
    ∧ ∀ a : HttpAddResponse, a.status = 429 → add_profiles_to_project a = .error 429 := by
  constructor
  · have e0 := h429 0 (by norm_num)
    have e1 := h429 1 (by norm_num)
    have e2 := h429 2 (by norm_num)
    have e3 := h429 3 (by norm_num)
    have e4 := h429 4 (by norm_num)
    have f0 := hrl 0 (by norm_num)
    have f1 := hrl 1 (by norm_num)
    have f2 := hrl 2 (by norm_num)
    have f3 := hrl 3 (by norm_num)
    have f4 := hrl 4 (by norm_num)
    norm_num [leonar_request, leonarGo, preSleep, e0, e1, e2, e3, e4, f0, f1, f2, f3, f4]
  · intro a ha
    simp [add_profiles_to_project, ha]

/-- Witness for C3's amended theorem: the constant-429 server without a
rate-limit header. -/
theorem retry_policy_amended_witness :
    leonar_request (fun _ => ⟨429, none, "", ""⟩)
        = (.error .rateLimitExhausted, [2, 4, 8, 16, 32])
    ∧ add_profiles_to_project ⟨429, {}⟩ = .error 429 := by
  have h := retry_policy_amended (fun _ => ⟨429, none, "", ""⟩)
    (fun _ _ => rfl) (fun _ _ => rfl)
  exact ⟨h.1, h.2 ⟨429, {}⟩ rfl⟩

/-! ### Post-search location filter (app.py `filter_by_location`, lines 270-289) -/

/-- Python `str.replace(",", " ")`. -/
def pyReplaceComma (l : List Char) : List Char :=
  l.map fun c => if c == ',' then ' ' else c

/-- Python `str.split()` with no separator: split on whitespace runs,
empty pieces dropped.  Fuel-based for structural recursion; called with
fuel equal to the input length, which is always sufficient. -/
def pySplitGo : Nat → List Char → List String
  | 0, _ => []
  | fuel + 1, l =>
    match l.dropWhile isPySpace with
    | [] => []
    | c :: rest =>
      String.mk ((c :: rest).takeWhile fun d => !isPySpace d)
        :: pySplitGo fuel ((c :: rest).dropWhile fun d => !isPySpace d)

def pySplit (s : String) : List String := pySplitGo s.data.length s.data

/-- `[t.strip() for t in region_lower.replace(",", " ").split() if len(t.strip()) > 2]`
with `region_lower = region.lower().strip()` (app.py lines 275-276). -/
def regionTerms (region : String) : List String :=
  ((pySplit (String.mk (pyReplaceComma (pyStrip (pyLower region)).data))).map pyStrip).filter
    fun t => decide (t.length > 2)

/-- `((p.get("location") or "")).lower()` (app.py line 281). -/
def locOf (p : Profile) : String := pyLower (orEmpty p.location)

/-- Substring test on code points: Python's `term in loc`. -/
def isSub (needle : List Char) : List Char → Bool
  | [] => needle.isEmpty
  | c :: rest => needle.isPrefixOf (c :: rest) || isSub needle rest

/-- The matched/excluded accumulation loop (app.py lines 278-287). -/
def flGo (terms : List String) : List Profile → List Profile × List Profile
  | [] => ([], [])
  | p :: rest =>
    if locOf p == "" then (p :: (flGo terms rest).1, (flGo terms rest).2)
    else if terms.any (fun t => isSub t.data (locOf p).data) then
      (p :: (flGo terms rest).1, (flGo terms rest).2)
    else ((flGo terms rest).1, p :: (flGo terms rest).2)

def filter_by_location (profiles : List Profile) (region : String) :
    List Profile × List Profile :=
  if region = "" then (profiles, [])
  else flGo (regionTerms region) profiles

/-- The claim's retention rule: empty location, or some region term is a
case-insensitive substring of the location. -/
def retainedSpec (region : String) (p : Profile) : Prop :=
  locOf p = "" ∨ ∃ t ∈ regionTerms region, isSub t.data (locOf p).data = true

instance retainedSpecDecidable (region : String) (p : Profile) :
    Decidable (retainedSpec region p) :=
  inferInstanceAs (Decidable
    (locOf p = "" ∨ ∃ t ∈ regionTerms region, isSub t.data (locOf p).data = true))

theorem retainedSpec_decide (region : String) (p : Profile) :
    decide (retainedSpec region p)
      = (locOf p == "" || (regionTerms region).any fun t => isSub t.data (locOf p).data) := by
  by_cases h : retainedSpec region p
  · rw [decide_eq_true h]
    symm
    simp only [Bool.or_eq_true, List.any_eq_true, beq_iff_eq]
    exact h
  · rw [decide_eq_false h]
    symm
    cases hb : (locOf p == "" || (regionTerms region).any fun t => isSub t.data (locOf p).data)
    · rfl
    · exfalso
      apply h
      simp only [Bool.or_eq_true, List.any_eq_true, beq_iff_eq] at hb
      exact hb

theorem flGo_eq_filter (terms : List String) :
    ∀ l : List Profile,
      flGo terms l
        = (l.filter (fun p => locOf p == "" || terms.any fun t => isSub t.data (locOf p).data),
           l.filter fun p => !(locOf p == "" || terms.any fun t => isSub t.data (locOf p).data)) := by
  intro l
  induction l with
  | nil => simp [flGo]
  | cons p rest ih =>
    by_cases h1 : locOf p == ""
    · rw [flGo, if_pos h1, ih]
      simp [List.filter_cons, h1]
    · by_cases h2 : terms.any (fun t => isSub t.data (locOf p).data)
      · rw [flGo, if_neg h1, if_pos h2, ih]
        simp [List.filter_cons, h1, h2]
      · rw [flGo, if_neg h1, if_neg h2, ih]
        simp [List.filter_cons, h1, h2]

/-- C5: for a non-empty region, the location filter retains exactly the
profiles satisfying the claim's rule (empty location, or some region
term — comma-to-space split, whitespace split, terms longer than 2
characters — occurs case-insensitively as a substring), and excludes
the rest; concretely, region `"Île-de-France"` yields the single term
`"île-de-france"`, and a profile located `"Paris, France"` is excluded. -/
theorem filter_by_location_correct (region : String) (profiles : List Profile)
    (hr : region ≠ "") :
    (filter_by_location profiles region).1
        = profiles.filter (fun p => decide (retainedSpec region p))
    ∧ (filter_by_location profiles region).2
        = profiles.filter (fun p => !decide (retainedSpec region p))
    ∧ regionTerms "Île-de-France" = ["île-de-france"]
    ∧ filter_by_location [{ location := some "Paris, France" }] "Île-de-France"
        = ([], [{ location := some "Paris, France" }]) := by
  have hfl : filter_by_location profiles region = flGo (regionTerms region) profiles := by
    rw [filter_by_location, if_neg hr]
  refine ⟨?_, ?_, by decide, by decide⟩
  · rw [hfl, flGo_eq_filter]
    exact List.filter_congr fun p _ => (retainedSpec_decide region p).symm
  · rw [hfl, flGo_eq_filter]
    refine List.filter_congr fun p _ => ?_
    rw [retainedSpec_decide region p]

/-- Witness for C5, at region `"Île-de-France"` and the Paris profile. -/
theorem filter_by_location_correct_witness :
    regionTerms "Île-de-France" = ["île-de-france"]
    ∧ filter_by_location [{ location := some "Paris, France" }] "Île-de-France"
        = ([], [{ location := some "Paris, France" }]) := by
  have h := filter_by_location_correct "Île-de-France"
    [{ location := some "Paris, France" }] (by decide)
  exact ⟨h.2.2.1, h.2.2.2⟩

/-! ### Score merge and ranking (app.py lines 856-864)

`scores_map = {s["profile_id"]: s for s in all_scores}` (later entries
overwrite earlier ones), then each profile is merged with
`scores_map.get(pid, {"score": 0, "justification": "Non scoré"})` and the
result is sorted descending by score with Python's stable `list.sort`. -/

structure ScoreRes where
  profile_id : String
  score : Int
  justification : String
  deriving DecidableEq, Repr

structure ScoredProfile where
  base : Profile
  score : Int
  justification : String
  deriving DecidableEq, Repr

/-- Dict-comprehension build followed by `.get pid`: the last score entry
with the given profile id wins; `none` when the id is absent. -/
def scoresLookup (scores : List ScoreRes) (pid : String) : Option ScoreRes :=
  scores.foldl (fun acc s => if s.profile_id = pid then some s else acc) none

/-- One iteration of the merge loop (app.py lines 859-862), restricted to
the typed score fields; the dictionary-level frame behaviour of the same
line is modelled separately below. -/
def mergeOne (scores : List ScoreRes) (p : Profile) : ScoredProfile :=
  match scoresLookup scores (orEmpty p.profile_id) with
  | some s => ⟨p, s.score, s.justification⟩
  | none => ⟨p, 0, "Non scoré"⟩

def mergeScores (scores : List ScoreRes) (profiles : List Profile) : List ScoredProfile :=
  profiles.map (mergeOne scores)

/-- Stable descending insertion: an element moves past strictly greater
scores only, so equal scores keep their original relative order —
the unique behaviour of Python's stable `sort(key=score, reverse=True)`. -/
def insertDesc (x : ScoredProfile) : List ScoredProfile → List ScoredProfile
  | [] => [x]
  | y :: ys => if x.score < y.score then y :: insertDesc x ys else x :: y :: ys

def sortDesc (l : List ScoredProfile) : List ScoredProfile :=
  l.foldr insertDesc []

/-- `scored_profiles` after the sort on app.py line 864. -/
def rankProfiles (scores : List ScoreRes) (profiles : List Profile) : List ScoredProfile :=
  sortDesc (mergeScores scores profiles)

theorem insertDesc_perm (x : ScoredProfile) :
    ∀ l : List ScoredProfile, (insertDesc x l).Perm (x :: l) := by
  intro l
  induction l with
  | nil => simp [insertDesc]
  | cons y ys ih =>
    rw [insertDesc]
    by_cases hxy : x.score < y.score
    · rw [if_pos hxy]
      exact (ih.cons y).trans (List.Perm.swap x y ys)
    · rw [if_neg hxy]

theorem sortDesc_perm : ∀ l : List ScoredProfile, (sortDesc l).Perm l := by
  intro l
  induction l with
  | nil => simp [sortDesc]
  | cons a l ih => exact (insertDesc_perm a (sortDesc l)).trans (ih.cons a)

theorem insertDesc_sorted (x : ScoredProfile) :
    ∀ l : List ScoredProfile, l.Pairwise (fun a b => b.score ≤ a.score) →
      (insertDesc x l).Pairwise (fun a b => b.score ≤ a.score) := by
  intro l
  induction l with
  | nil => intro _; simp [insertDesc]
  | cons y ys ih =>
    intro hp
    rw [List.pairwise_cons] at hp
    rw [insertDesc]
    by_cases hxy : x.score < y.score
    · rw [if_pos hxy]
      rw [List.pairwise_cons]
      refine ⟨?_, ih hp.2⟩
      intro b hb
      rcases List.mem_cons.mp ((insertDesc_perm x ys).mem_iff.mp hb) with hb' | hb'
      · subst hb'; exact le_of_lt hxy
      · exact hp.1 b hb'
    · rw [if_neg hxy]
      push_neg at hxy
      rw [List.pairwise_cons]
      refine ⟨?_, List.pairwise_cons.mpr hp⟩
      intro b hb
      rcases List.mem_cons.mp hb with hb' | hb'
      · subst hb'; exact hxy
      · exact le_trans (hp.1 b hb') hxy

theorem sortDesc_sorted :
    ∀ l : List ScoredProfile, (sortDesc l).Pairwise fun a b => b.score ≤ a.score := by
  intro l
  induction l with
  | nil => simp [sortDesc]
  | cons a l ih => exact insertDesc_sorted a (sortDesc l) ih

theorem insertDesc_filter (s : Int) (x : ScoredProfile) :
    ∀ l : List ScoredProfile,
      (insertDesc x l).filter (fun y => y.score == s)
        = if x.score == s then x :: l.filter (fun y => y.score == s)
          else l.filter fun y => y.score == s := by
  intro l
  induction l with
  | nil =>
    cases h : (x.score == s) <;> simp [insertDesc, List.filter, h]
  | cons y ys ih =>
    rw [insertDesc]
    by_cases hxy : x.score < y.score
    · rw [if_pos hxy, List.filter_cons]
      by_cases hy : (y.score == s) = true
      · have hx : (x.score == s) = false := by
          rw [beq_iff_eq] at hy
          rw [beq_eq_false_iff_ne]
          intro hxe
          rw [hxe, hy] at hxy
          exact lt_irrefl s hxy
        rw [if_pos hy, ih, hx]
        simp [List.filter_cons, hy]
      · have hy' : (y.score == s) = false := by
          rwa [Bool.not_eq_true] at hy
        rw [if_neg hy, ih]
        simp [List.filter_cons, hy']
    · rw [if_neg hxy, List.filter_cons]

theorem sortDesc_filter (s : Int) :
    ∀ l : List ScoredProfile,
      (sortDesc l).filter (fun y => y.score == s) = l.filter fun y => y.score == s := by
  intro l
  induction l with
  | nil => rfl
  | cons a l ih =>
    have : sortDesc (a :: l) = insertDesc a (sortDesc l) := rfl
    rw [this, insertDesc_filter, List.filter_cons]
    by_cases ha : (a.score == s) = true
    · rw [if_pos ha, if_pos ha, ih]
    · rw [if_neg ha, if_neg ha, ih]

/-- C9: the merged result list is sorted in descending order of score,
is a permutation of the merged list, and the sort is stable: for every
score value, the equal-score entries appear in the same order as in the
merged (original retrieval-ordered) list. -/
theorem rank_sorted_stable (scores : List ScoreRes) (profiles : List Profile) :
    ((rankProfiles scores profiles).Pairwise fun a b => b.score ≤ a.score)
    ∧ (rankProfiles scores profiles).Perm (mergeScores scores profiles)
    ∧ ∀ s : Int,
        (rankProfiles scores profiles).filter (fun y => y.score == s)
          = (mergeScores scores profiles).filter fun y => y.score == s :=
  ⟨sortDesc_sorted _, sortDesc_perm _, fun s => sortDesc_filter s _⟩

theorem scoresLookup_acc (pid : String) :
    ∀ (scores : List ScoreRes) (acc : Option ScoreRes),
      (∀ s ∈ scores, s.profile_id ≠ pid) →
      scores.foldl (fun acc s => if s.profile_id = pid then some s else acc) acc = acc := by
  intro scores
  induction scores with
  | nil => intro acc _; rfl
  | cons s rest ih =>
    intro acc h
    have hs : s.profile_id ≠ pid := h s (List.mem_cons_self s rest)
    rw [List.foldl_cons, if_neg hs]
    exact ih acc fun t ht => h t (List.mem_cons_of_mem s ht)

theorem scoresLookup_none (scores : List ScoreRes) (pid : String)
    (h : ∀ s ∈ scores, s.profile_id ≠ pid) : scoresLookup scores pid = none :=
  scoresLookup_acc pid scores none h

/-- C7: a profile whose id has no entry among the scorer's results is
merged with the default score 0 and the "Non scoré" (not scored)
justification, and is still present in the ranked output list. -/
theorem unscored_default_kept (scores : List ScoreRes) (profiles : List Profile)
    (p : Profile) (hp : p ∈ profiles)
    (hnone : ∀ s ∈ scores, s.profile_id ≠ orEmpty p.profile_id) :
    mergeOne scores p = ⟨p, 0, "Non scoré"⟩
    ∧ (⟨p, 0, "Non scoré"⟩ : ScoredProfile) ∈ rankProfiles scores profiles := by
  have hmerge : mergeOne scores p = ⟨p, 0, "Non scoré"⟩ := by
    rw [mergeOne, scoresLookup_none scores _ hnone]
  refine ⟨hmerge, ?_⟩
  have hmem : (⟨p, 0, "Non scoré"⟩ : ScoredProfile) ∈ mergeScores scores profiles := by
    rw [← hmerge]
    exact List.mem_map_of_mem _ hp
  exact (sortDesc_perm _).mem_iff.mpr hmem

/-- Witness for C7: a profile with id "a" and a score list that only
mentions id "b". -/
theorem unscored_default_kept_witness :
    mergeOne [⟨"b", 7, "ok"⟩] { profile_id := some "a" } =
      ⟨{ profile_id := some "a" }, 0, "Non scoré"⟩
    ∧ (⟨{ profile_id := some "a" }, 0, "Non scoré"⟩ : ScoredProfile)
        ∈ rankProfiles [⟨"b", 7, "ok"⟩] [{ profile_id := some "a" }] :=
  unscored_default_kept [⟨"b", 7, "ok"⟩] [{ profile_id := some "a" }]
    { profile_id := some "a" } (List.mem_singleton.mpr rfl) (by decide)

/-! ### Dictionary-level view of the merge (app.py line 862)

`{**p, "score": sd["score"], "justification": sd["justification"]}`
copies `p` and then sets the two keys, overwriting in place when a key
already exists and appending otherwise.  Profiles are provider JSON
objects, modelled as association lists with opaque values. -/

inductive PyVal where
  | vint (n : Int)
  | vstr (s : String)
  | vnone
  | vtag (n : Nat)
  deriving DecidableEq, Repr

abbrev PyDict := List (String × PyVal)

def dictHasKey (d : PyDict) (k : String) : Bool := d.any fun kv => kv.1 == k

def dictGet (d : PyDict) (k : String) : Option PyVal :=
  (d.find? fun kv => kv.1 == k).map Prod.snd

/-- Python `dict.__setitem__` on a copy: overwrite in place when the key
exists, append otherwise. -/
def dictSet (d : PyDict) (k : String) (v : PyVal) : PyDict :=
  if dictHasKey d k then d.map fun kv => if kv.1 == k then (k, v) else kv
  else d ++ [(k, v)]

/-- The dict built by `{**p, "score": score, "justification": just}`. -/
def mergeProfileScore (p : PyDict) (score just : PyVal) : PyDict :=
  dictSet (dictSet p "score" score) "justification" just

theorem find?_append_pd (f : String × PyVal → Bool) :
    ∀ l1 l2 : List (String × PyVal),
      (l1 ++ l2).find? f = ((l1.find? f).orElse fun _ => l2.find? f) := by
  intro l1 l2
  induction l1 with
  | nil => simp
  | cons a l ih =>
    cases h : f a
    · simp only [List.cons_append, List.find?, h]
      exact ih
    · simp [List.find?, h]

theorem find?_none_of_any_false (f : String × PyVal → Bool) :
    ∀ l : List (String × PyVal), l.any f = false → l.find? f = none := by
  intro l
  induction l with
  | nil => intro _; rfl
  | cons a t ih =>
    intro h
    rw [List.any_cons, Bool.or_eq_false_iff] at h
    rw [List.find?, h.1]
    exact ih h.2

/-- C10: merging a score into a profile that does not already carry
"score" or "justification" keys yields exactly the original dictionary
with those two keys appended: every other key keeps its value, and the
two new keys hold the score and justification. -/
theorem merge_frame (p : PyDict) (score just : PyVal)
    (hs : dictHasKey p "score" = false) (hj : dictHasKey p "justification" = false) :
    mergeProfileScore p score just
        = p ++ [("score", score), ("justification", just)]
    ∧ (∀ k, k ≠ "score" → k ≠ "justification" →
        dictGet (mergeProfileScore p score just) k = dictGet p k)
    ∧ dictGet (mergeProfileScore p score just) "score" = some score
    ∧ dictGet (mergeProfileScore p score just) "justification" = some just := by
  have h1 : dictSet p "score" score = p ++ [("score", score)] := by
    rw [dictSet, if_neg (by rw [hs]; exact Bool.false_ne_true)]
  have h2 : dictHasKey (p ++ [("score", score)]) "justification" = false := by
    rw [dictHasKey, List.any_append]
    rw [dictHasKey] at hj
    rw [hj]
    rfl
  have hmain : mergeProfileScore p score just
      = p ++ [("score", score), ("justification", just)] := by
    rw [mergeProfileScore, h1, dictSet, if_neg (by rw [h2]; exact Bool.false_ne_true)]
    simp
  refine ⟨hmain, ?_, ?_, ?_⟩
  · intro k hks hkj
    rw [hmain, dictGet, dictGet, find?_append_pd]
    have htail : (([("score", score), ("justification", just)] : PyDict).find?
        fun kv => kv.1 == k) = none := by
      rw [List.find?, List.find?, List.find?]
      rw [show (("score" : String) == k) = false from beq_eq_false_iff_ne.mpr fun h => hks h.symm]
      rw [show (("justification" : String) == k) = false from
        beq_eq_false_iff_ne.mpr fun h => hkj h.symm]
    rw [htail]
    cases p.find? fun kv => kv.1 == k <;> rfl
  · rw [hmain, dictGet, find?_append_pd,
      find?_none_of_any_false _ p (by rw [dictHasKey] at hs; exact hs)]
    rfl
  · rw [hmain, dictGet, find?_append_pd,
      find?_none_of_any_false _ p (by rw [dictHasKey] at hj; exact hj)]
    rfl

/-- Witness for C10: a one-key profile dictionary merged with a concrete
score and justification. -/
theorem merge_frame_witness :
    mergeProfileScore [("first_name", PyVal.vstr "A")] (PyVal.vint 5) (PyVal.vstr "ok")
        = [("first_name", PyVal.vstr "A"), ("score", PyVal.vint 5),
            ("justification", PyVal.vstr "ok")]
    ∧ dictGet (mergeProfileScore [("first_name", PyVal.vstr "A")]
        (PyVal.vint 5) (PyVal.vstr "ok")) "first_name" = some (PyVal.vstr "A") := by
  have h := merge_frame [("first_name", PyVal.vstr "A")] (PyVal.vint 5) (PyVal.vstr "ok")
    (by decide) (by decide)
  refine ⟨h.1, ?_⟩
  rw [h.2.1 "first_name" (by decide) (by decide)]
  rfl

/-! ### Write-back push loop (app.py lines 952-975)

`for i in range(0, len(profiles_payload), 50): batch = profiles_payload[i:i+50]`
issues one `add_profiles_to_project` call per 50-profile slice,
accumulating the returned `added` counts and `contact_ids`; then
`for idx, contact_id in enumerate(contact_ids): if idx < len(profiles_to_push)`
makes one note-attachment attempt per contact id (note failures are
swallowed, so every id below the bound yields exactly one attempt). -/

def chunksGo {α : Type} (k : Nat) : Nat → List α → List (List α)
  | _, [] => []
  | 0, _ :: _ => []
  | fuel + 1, a :: rest => ((a :: rest).take k) :: chunksGo k fuel ((a :: rest).drop k)

/-- The batch slices `payload[0:k], payload[k:2k], ...`; the fuel
`payload.length` always suffices. -/
def chunks {α : Type} (k : Nat) (l : List α) : List (List α) := chunksGo k l.length l

/-- The add-to-project loop: one provider call per batch.  `server b` is
the provider's (parsed, successful) response to the batch `b`. -/
def pushLoop {α : Type} (server : List α → AddResult) (payload : List α) :
    Int × List String :=
  (chunks 50 payload).foldl
    (fun acc b => (acc.1 + (server b).added, acc.2 ++ (server b).contact_ids)) (0, [])

/-- The note loop (app.py lines 964-975): ids at positions below the
number of pushed profiles each get exactly one attachment attempt. -/
def notesGo (numProfiles : Nat) : Nat → List String → List String
  | _, [] => []
  | idx, c :: rest =>
    if idx < numProfiles then c :: notesGo numProfiles (idx + 1) rest
    else notesGo numProfiles (idx + 1) rest

def noteAttempts (ids : List String) (numProfiles : Nat) : List String :=
  notesGo numProfiles 0 ids

theorem chunksGo_nil {α : Type} (k fuel : Nat) : chunksGo k fuel ([] : List α) = [] := by
  cases fuel <;> rfl

theorem chunksGo_cons {α : Type} (k fuel : Nat) (l : List α) (hl : l ≠ []) :
    chunksGo k (fuel + 1) l = l.take k :: chunksGo k fuel (l.drop k) := by
  obtain ⟨a, t, rfl⟩ := List.exists_cons_of_ne_nil hl
  rfl

theorem chunks_of_length_120 {α : Type} (l : List α) (h : l.length = 120) :
    chunks 50 l = [l.take 50, (l.drop 50).take 50, (l.drop 50).drop 50] := by
  have h1 : l ≠ [] := by intro e; rw [e] at h; simp at h
  have hd1 : (l.drop 50).length = 70 := by rw [List.length_drop, h]
  have h2 : l.drop 50 ≠ [] := by intro e; rw [e] at hd1; simp at hd1
  have hd2 : ((l.drop 50).drop 50).length = 20 := by rw [List.length_drop, hd1]
  have h3 : (l.drop 50).drop 50 ≠ [] := by intro e; rw [e] at hd2; simp at hd2
  have hd3 : ((l.drop 50).drop 50).drop 50 = [] := by
    have : (((l.drop 50).drop 50).drop 50).length = 0 := by rw [List.length_drop, hd2]
    exact List.eq_nil_of_length_eq_zero this
  rw [chunks, h]
  rw [show (120 : Nat) = 119 + 1 from rfl, chunksGo_cons _ _ _ h1]
  rw [show (119 : Nat) = 118 + 1 from rfl, chunksGo_cons _ _ _ h2]
  rw [show (118 : Nat) = 117 + 1 from rfl, chunksGo_cons _ _ _ h3]
  rw [hd3, chunksGo_nil]
  rw [List.take_of_length_le
    (show ((l.drop 50).drop 50).length ≤ 50 by rw [hd2]; norm_num)]

theorem pushLoop_ids {α : Type} (server : List α → AddResult) :
    ∀ (bs : List (List α)) (acc : Int × List String),
      (bs.foldl (fun acc b => (acc.1 + (server b).added, acc.2 ++ (server b).contact_ids))
        acc).2 = acc.2 ++ (bs.map fun b => (server b).contact_ids).flatten := by
  intro bs
  induction bs with
  | nil => intro acc; simp
  | cons b rest ih =>
    intro acc
    rw [List.foldl_cons, ih]
    simp [List.append_assoc]

theorem notesGo_all (n : Nat) :
    ∀ (l : List String) (idx : Nat), idx + l.length ≤ n → notesGo n idx l = l := by
  intro l
  induction l with
  | nil => intro idx _; rfl
  | cons c rest ih =>
    intro idx h
    rw [List.length_cons] at h
    rw [notesGo, if_pos (by omega)]
    rw [ih (idx + 1) (by omega)]

/-- C8: with 120 accepted profiles and the 50-per-call cap, the push loop
issues exactly 3 add-to-project calls carrying 50, 50 and 20 profiles in
order (their concatenation is the full payload), and — as long as the
provider returns at most one contact id per profile sent — the note loop
makes exactly one attachment attempt per returned contact id. -/
theorem push_batching {α : Type} (payload : List α) (server : List α → AddResult)
    (hlen : payload.length = 120)
    (hsrv : ∀ b : List α, ((server b).contact_ids).length ≤ b.length) :
    (chunks 50 payload).map List.length = [50, 50, 20]
    ∧ (chunks 50 payload).flatten = payload
    ∧ noteAttempts (pushLoop server payload).2 payload.length = (pushLoop server payload).2 := by
  have hch := chunks_of_length_120 payload hlen
  have hshape : (chunks 50 payload).map List.length = [50, 50, 20] := by
    rw [hch]
    simp [List.length_take, List.length_drop, hlen]
  have hjoin : (chunks 50 payload).flatten = payload := by
    rw [hch]
    simp only [List.flatten_cons, List.flatten_nil]
    rw [List.append_nil, List.take_append_drop, List.take_append_drop]
  refine ⟨hshape, hjoin, ?_⟩
  have hids : (pushLoop server payload).2
      = ((chunks 50 payload).map fun b => (server b).contact_ids).flatten := by
    rw [pushLoop, pushLoop_ids]
    rfl
  have hlenids : (pushLoop server payload).2.length ≤ payload.length := by
    rw [hids, List.length_flatten, List.map_map]
    have hle : ((chunks 50 payload).map fun b => ((server b).contact_ids).length).sum
        ≤ ((chunks 50 payload).map List.length).sum :=
      List.sum_le_sum fun b _ => hsrv b
    have hsum : ((chunks 50 payload).map List.length).sum = 120 := by
      rw [hshape]; rfl
    calc ((chunks 50 payload).map (List.length ∘ fun b => (server b).contact_ids)).sum
        = ((chunks 50 payload).map fun b => ((server b).contact_ids).length).sum := rfl
      _ ≤ ((chunks 50 payload).map List.length).sum := hle
      _ = payload.length := by rw [hsum, hlen]
  exact notesGo_all payload.length (pushLoop server payload).2 0 (by omega)

/-- Witness for C8: a concrete 120-element payload and a provider that
returns no contact ids (0 ≤ batch size). -/
theorem push_batching_witness :
    (chunks 50 (List.replicate 120 (0 : Nat))).map List.length = [50, 50, 20]
    ∧ (chunks 50 (List.replicate 120 (0 : Nat))).flatten = List.replicate 120 (0 : Nat) := by
  have h := push_batching (List.replicate 120 (0 : Nat)) (fun _ => ⟨0, []⟩)
    (by simp) (fun b => by simp)
  exact ⟨h.1, h.2.1⟩

/-! ### Boolean query sanitizer (app.py `sanitize_boolean_query`, lines 112-123)

The function applies, in order: `strip()`; the regex rewrite
`\)\s*NOT\s*\(` → `") AND NOT ("`; the regex rewrite
`\bAND\s+AND\s+NOT\b` → `"AND NOT"`; `replace("&", "and")`; and the
regex rewrite `\s+` → `" "`.  Each regex substitution scans left to
right, replacing non-overlapping matches and resuming after each match,
exactly as Python `re.sub` does; word boundaries `\b` test the original
neighbouring characters.  All definitions use structural fuel equal to
the input length (always sufficient; exhausted fuel returns the input
unchanged), so they evaluate by kernel reduction. -/

def repl1 : List Char := [')', ' ', 'A', 'N', 'D', ' ', 'N', 'O', 'T', ' ', '(']

/-- Literal `)` pattern atom. -/
def eatClose : List Char → Option (List Char)
  | ')' :: r => some r
  | _ => none

/-- Pattern fragment `\s*NOT`. -/
def eatNOTkw (l : List Char) : Option (List Char) :=
  match l.dropWhile isPySpace with
  | 'N' :: 'O' :: 'T' :: r => some r
  | _ => none

/-- Pattern fragment `\s*\(`. -/
def eatOpenP (l : List Char) : Option (List Char) :=
  match l.dropWhile isPySpace with
  | '(' :: r => some r
  | _ => none

/-- Anchored match of `\)\s*NOT\s*\(`: returns the remainder after the
match.  Greedy `\s*` needs no backtracking because the next pattern
atoms (`NOT`, `(`) are not whitespace. -/
def matcher1 (l : List Char) : Option (List Char) :=
  (eatClose l).bind fun r1 => (eatNOTkw r1).bind fun r3 => eatOpenP r3

def sub1Go : Nat → List Char → List Char
  | 0, l => l
  | _ + 1, [] => []
  | fuel + 1, c :: rest =>
    match matcher1 (c :: rest) with
    | some r => repl1 ++ sub1Go fuel r
    | none => c :: sub1Go fuel rest

def sub1 (l : List Char) : List Char := sub1Go l.length l

/-- Whether `\)\s*NOT\s*\(` matches anywhere in the text. -/
def hasMatch1 : List Char → Bool
  | [] => false
  | c :: rest => (matcher1 (c :: rest)).isSome || hasMatch1 rest

/-- Python regex word characters, ASCII range. -/
def isWordChar (c : Char) : Bool := c.isAlphanum || c == '_'

def repl2 : List Char := ['A', 'N', 'D', ' ', 'N', 'O', 'T']

/-- Literal `AND` pattern atom. -/
def eatANDkw : List Char → Option (List Char)
  | 'A' :: 'N' :: 'D' :: r => some r
  | _ => none

/-- Pattern atom `\s+`: at least one whitespace character, consumed
greedily (safe: the following atoms are not whitespace). -/
def eatWsPlus : List Char → Option (List Char)
  | [] => none
  | c :: r => if isPySpace c then some (r.dropWhile isPySpace) else none

def headWordChar : List Char → Bool
  | [] => false
  | d :: _ => isWordChar d

/-- Pattern fragment `NOT\b`: the literal, followed by end of text or a
non-word character. -/
def eatNOTend : List Char → Option (List Char)
  | 'N' :: 'O' :: 'T' :: r => if headWordChar r then none else some r
  | _ => none

/-- Anchored match of `AND\s+AND\s+NOT\b` (the leading `\b` is checked by
the caller against the previous character): returns the remainder. -/
def matcher2 (l : List Char) : Option (List Char) :=
  (eatANDkw l).bind fun r1 => (eatWsPlus r1).bind fun r2 =>
    (eatANDkw r2).bind fun r3 => (eatWsPlus r3).bind fun r4 => eatNOTend r4

/-- The leading `\b` of the second rewrite: start of text, or a non-word
previous character. -/
def boundaryOk : Option Char → Bool
  | none => true
  | some c => !isWordChar c

def sub2Go : Nat → Option Char → List Char → List Char
  | 0, _, l => l
  | _ + 1, _, [] => []
  | fuel + 1, prev, c :: rest =>
    if boundaryOk prev then
      match matcher2 (c :: rest) with
      | some r => repl2 ++ sub2Go fuel (some 'T') r
      | none => c :: sub2Go fuel (some c) rest
    else c :: sub2Go fuel (some c) rest

def sub2 (l : List Char) : List Char := sub2Go l.length none l

def hasMatch2Go : Option Char → List Char → Bool
  | _, [] => false
  | prev, c :: rest =>
    (boundaryOk prev && (matcher2 (c :: rest)).isSome) || hasMatch2Go (some c) rest

/-- Whether `\bAND\s+AND\s+NOT\b` matches anywhere in the text. -/
def hasMatch2 (l : List Char) : Bool := hasMatch2Go none l

/-- Python `q.replace('&', 'and')`. -/
def ampRepl : List Char → List Char
  | [] => []
  | c :: rest => if c == '&' then 'a' :: 'n' :: 'd' :: ampRepl rest else c :: ampRepl rest

def hasAmp (l : List Char) : Bool := l.any fun c => c == '&'

/-- Python `re.sub(r'\s+', ' ', q)`: each maximal whitespace run becomes
one space. -/
def collapseGo : Nat → List Char → List Char
  | 0, l => l
  | _ + 1, [] => []
  | fuel + 1, c :: rest =>
    if isPySpace c then ' ' :: collapseGo fuel (rest.dropWhile isPySpace)
    else c :: collapseGo fuel rest

def collapseWs (l : List Char) : List Char := collapseGo l.length l

def sanitize_boolean_query (s : String) : String :=
  String.mk (collapseWs (ampRepl (sub2 (sub1 (pyStripL s.data)))))

/-- Counterexample for C4 as stated: the `AND AND NOT` collapsing rewrite
can re-trigger.  `sanitize("AND AND AND NOT") = "AND AND NOT"`, and a
second application collapses it further to `"AND NOT"`. -/
theorem sanitize_not_idempotent :
    sanitize_boolean_query (sanitize_boolean_query "AND AND AND NOT")
      ≠ sanitize_boolean_query "AND AND AND NOT" := by
  decide

/-! Fixed-point lemmas: each rewriting stage is the identity on text it
cannot match. -/

theorem sub1Go_id : ∀ (l : List Char) (fuel : Nat), hasMatch1 l = false →
    sub1Go fuel l = l := by
  intro l
  induction l with
  | nil => intro fuel _; cases fuel <;> rfl
  | cons c rest ih =>
    intro fuel h
    rw [hasMatch1, Bool.or_eq_false_iff] at h
    have hm : matcher1 (c :: rest) = none := by
      cases hmm : matcher1 (c :: rest)
      · rfl
      · rw [hmm] at h; simp at h
    cases fuel with
    | zero => rfl
    | succ fuel =>
      rw [sub1Go, hm]
      rw [ih fuel h.2]

theorem sub2Go_id : ∀ (l : List Char) (fuel : Nat) (prev : Option Char),
    hasMatch2Go prev l = false → sub2Go fuel prev l = l := by
  intro l
  induction l with
  | nil => intro fuel prev _; cases fuel <;> rfl
  | cons c rest ih =>
    intro fuel prev h
    rw [hasMatch2Go, Bool.or_eq_false_iff, Bool.and_eq_false_iff] at h
    cases fuel with
    | zero => rfl
    | succ fuel =>
      rw [sub2Go]
      rcases h.1 with hb | hm
      · rw [if_neg (by rw [hb]; exact Bool.false_ne_true)]
        rw [ih fuel (some c) h.2]
      · have hm' : matcher2 (c :: rest) = none := by
          cases hmm : matcher2 (c :: rest)
          · rfl
          · rw [hmm] at hm; simp at hm
        by_cases hb : boundaryOk prev = true
        · rw [if_pos hb, hm']
          rw [ih fuel (some c) h.2]
        · rw [if_neg hb, ih fuel (some c) h.2]

theorem ampRepl_id : ∀ l : List Char, hasAmp l = false → ampRepl l = l := by
  intro l
  induction l with
  | nil => intro _; rfl
  | cons c rest ih =>
    intro h
    rw [hasAmp, List.any_cons, Bool.or_eq_false_iff] at h
    rw [ampRepl, if_neg (by rw [h.1]; exact Bool.false_ne_true)]
    rw [ih h.2]

theorem ampRepl_no_amp : ∀ l : List Char, hasAmp (ampRepl l) = false := by
  intro l
  induction l with
  | nil => rfl
  | cons c rest ih =>
    rw [ampRepl]
    by_cases hc : (c == '&') = true
    · rw [if_pos hc]
      simp [hasAmp, List.any_cons] at ih ⊢
      exact ih
    · rw [if_neg hc]
      rw [Bool.not_eq_true] at hc
      simp [hasAmp, List.any_cons, hc] at ih ⊢
      exact ih

theorem mem_of_mem_dropWhile {p : Char → Bool} :
    ∀ {l : List Char} {a : Char}, a ∈ l.dropWhile p → a ∈ l := by
  intro l
  induction l with
  | nil => intro a h; simp [List.dropWhile] at h
  | cons c rest ih =>
    intro a h
    rw [List.dropWhile] at h
    by_cases hc : p c = true
    · rw [hc] at h
      exact List.mem_cons_of_mem c (ih h)
    · rw [Bool.not_eq_true] at hc
      rw [hc] at h
      exact h

theorem mem_collapseGo : ∀ (fuel : Nat) (l : List Char) (a : Char),
    a ∈ collapseGo fuel l → a = ' ' ∨ a ∈ l := by
  intro fuel
  induction fuel with
  | zero => intro l a h; exact Or.inr h
  | succ fuel ih =>
    intro l a h
    cases l with
    | nil => simp [collapseGo] at h
    | cons c rest =>
      rw [collapseGo] at h
      by_cases hc : isPySpace c = true
      · rw [if_pos hc] at h
        rcases List.mem_cons.mp h with h' | h'
        · exact Or.inl h'
        · rcases ih _ a h' with h'' | h''
          · exact Or.inl h''
          · exact Or.inr (List.mem_cons_of_mem c (mem_of_mem_dropWhile h''))
      · rw [if_neg hc] at h
        rcases List.mem_cons.mp h with h' | h'
        · exact Or.inr (h' ▸ List.mem_cons_self c rest)
        · rcases ih _ a h' with h'' | h''
          · exact Or.inl h''
          · exact Or.inr (List.mem_cons_of_mem c h'')

theorem collapseGo_no_amp (fuel : Nat) (l : List Char) (h : hasAmp l = false) :
    hasAmp (collapseGo fuel l) = false := by
  rw [hasAmp, List.any_eq_false]
  intro a ha
  rcases mem_collapseGo fuel l a ha with h' | h'
  · rw [h']; decide
  · rw [hasAmp, List.any_eq_false] at h
    exact h a h'

/-! Machinery for the amended idempotence statement: the first and last
characters of sanitized output are never whitespace, its whitespace is
in collapsed normal form, and it contains no ampersand; hence every
rewriting stage except the two regex rules is the identity on it. -/

def lastOpt : List Char → Option Char
  | [] => none
  | [c] => some c
  | _ :: c :: rest => lastOpt (c :: rest)

theorem lastOpt_cons_ne_nil (a : Char) (l : List Char) (h : l ≠ []) :
    lastOpt (a :: l) = lastOpt l := by
  cases l with
  | nil => exact absurd rfl h
  | cons b t => rfl

theorem lastOpt_append_right : ∀ (w r : List Char), r ≠ [] →
    lastOpt (w ++ r) = lastOpt r := by
  intro w r hr
  induction w with
  | nil => rfl
  | cons a w ih =>
    rw [List.cons_append, lastOpt_cons_ne_nil a (w ++ r) ?_]
    · exact ih
    · intro h
      exact hr (List.append_eq_nil.mp h).2

theorem lastOpt_mem : ∀ (l : List Char) (c : Char), lastOpt l = some c → c ∈ l := by
  intro l
  induction l with
  | nil => intro c h; exact absurd h (by simp [lastOpt])
  | cons a t ih =>
    intro c h
    cases t with
    | nil =>
      have : a = c := by
        have h' : some a = some c := h
        injection h'
      rw [this]
      exact List.mem_cons_self c []
    | cons b t' =>
      rw [lastOpt_cons_ne_nil a (b :: t') (by simp)] at h
      exact List.mem_cons_of_mem a (ih c h)

theorem lastOpt_ne_none : ∀ l : List Char, l ≠ [] → lastOpt l ≠ none := by
  intro l
  induction l with
  | nil => intro h; exact absurd rfl h
  | cons a t ih =>
    intro _
    cases t with
    | nil => simp [lastOpt]
    | cons b t' =>
      rw [lastOpt_cons_ne_nil a (b :: t') (by simp)]
      exact ih (by simp)

theorem lastOpt_reverse : ∀ l : List Char, lastOpt l.reverse = l.head? := by
  intro l
  cases l with
  | nil => rfl
  | cons a t =>
    rw [List.reverse_cons]
    cases ht : t.reverse with
    | nil => rfl
    | cons b r =>
      rw [lastOpt_append_right (b :: r) [a] (by simp)]
      rfl

def headNotWs : List Char → Bool
  | [] => true
  | c :: _ => !isPySpace c

def lastNotWs (l : List Char) : Bool :=
  match lastOpt l with
  | none => true
  | some c => !isPySpace c

theorem lastNotWs_eq_headNotWs_reverse (l : List Char) :
    lastNotWs l = headNotWs l.reverse := by
  have h : lastOpt l = l.reverse.head? := by
    have h2 := lastOpt_reverse l.reverse
    rwa [List.reverse_reverse] at h2
  unfold lastNotWs
  rw [h]
  cases hrev : l.reverse with
  | nil => rfl
  | cons a t => rfl

theorem lastNotWs_cons (c : Char) (l : List Char) (h : l ≠ []) :
    lastNotWs (c :: l) = lastNotWs l := by
  unfold lastNotWs
  rw [lastOpt_cons_ne_nil c l h]

theorem lastNotWs_append (w r : List Char) (h : r ≠ []) :
    lastNotWs (w ++ r) = lastNotWs r := by
  unfold lastNotWs
  rw [lastOpt_append_right w r h]

theorem lastNotWs_of_suffix {w v : List Char} (h : w <:+ v) (hw : w ≠ []) :
    lastNotWs w = lastNotWs v := by
  obtain ⟨t, rfl⟩ := h
  exact (lastNotWs_append t w hw).symm

/-! dropWhile facts. -/

theorem dropWhile_headNotWs : ∀ l : List Char, headNotWs (l.dropWhile isPySpace) = true := by
  intro l
  induction l with
  | nil => rfl
  | cons c rest ih =>
    rw [List.dropWhile_cons]
    by_cases hc : isPySpace c = true
    · rw [if_pos hc]; exact ih
    · rw [if_neg hc]
      rw [Bool.not_eq_true] at hc
      simp [headNotWs, hc]

theorem dropWhile_eq_self_of_headNotWs (l : List Char) (h : headNotWs l = true) :
    l.dropWhile isPySpace = l := by
  cases l with
  | nil => rfl
  | cons c rest =>
    have hc : isPySpace c = false := by
      have h' : (!isPySpace c) = true := h
      rwa [Bool.not_eq_true'] at h'
    rw [List.dropWhile_cons, if_neg (by rw [hc]; exact Bool.false_ne_true)]

theorem dropWhile_suffix (p : Char → Bool) : ∀ l : List Char, l.dropWhile p <:+ l := by
  intro l
  induction l with
  | nil => exact List.nil_suffix
  | cons c rest ih =>
    rw [List.dropWhile_cons]
    by_cases hc : p c = true
    · rw [if_pos hc]
      exact ih.trans (List.suffix_cons c rest)
    · rw [if_neg hc]

theorem all_of_dropWhile_eq_nil {p : Char → Bool} :
    ∀ l : List Char, l.dropWhile p = [] → ∀ x ∈ l, p x = true := by
  intro l
  induction l with
  | nil => intro _ x hx; exact absurd hx (by simp)
  | cons c rest ih =>
    intro h x hx
    rw [List.dropWhile_cons] at h
    by_cases hc : p c = true
    · rw [if_pos hc] at h
      rcases List.mem_cons.mp hx with hx' | hx'
      · rw [hx']; exact hc
      · exact ih h x hx'
    · rw [if_neg hc] at h
      exact absurd h (by simp)

theorem length_dropWhile_le (p : Char → Bool) :
    ∀ l : List Char, (l.dropWhile p).length ≤ l.length := by
  intro l
  induction l with
  | nil => exact Nat.le_refl _
  | cons c rest ih =>
    rw [List.dropWhile_cons]
    by_cases hc : p c = true
    · rw [if_pos hc]
      exact Nat.le_succ_of_le ih
    · rw [if_neg hc]

/-- Python `str.strip` leaves a string with a non-whitespace first
character (when non-empty). -/
theorem pyStripL_headNotWs (l : List Char) : headNotWs (pyStripL l) = true := by
  rw [pyStripL, ← lastNotWs_eq_headNotWs_reverse]
  set w := (l.dropWhile isPySpace).reverse.dropWhile isPySpace with hw
  by_cases hwe : w = []
  · rw [hwe]; rfl
  · rw [lastNotWs_of_suffix (dropWhile_suffix isPySpace _) hwe]
    unfold lastNotWs
    rw [lastOpt_reverse]
    have hh := dropWhile_headNotWs l
    cases hd : (l.dropWhile isPySpace) with
    | nil => rfl
    | cons a t =>
      rw [hd] at hh
      exact hh

/-- Python `str.strip` leaves a string with a non-whitespace last
character (when non-empty). -/
theorem pyStripL_lastNotWs (l : List Char) : lastNotWs (pyStripL l) = true := by
  rw [pyStripL, lastNotWs_eq_headNotWs_reverse, List.reverse_reverse]
  exact dropWhile_headNotWs _

/-- A trimmed list is a fixed point of `pyStripL`. -/
theorem pyStripL_id (l : List Char) (h1 : headNotWs l = true) (h2 : lastNotWs l = true) :
    pyStripL l = l := by
  rw [pyStripL, dropWhile_eq_self_of_headNotWs l h1,
    dropWhile_eq_self_of_headNotWs l.reverse (by rw [← lastNotWs_eq_headNotWs_reverse]; exact h2),
    List.reverse_reverse]

/-! Each pattern atom returns a suffix of its input, so the remainder of
a full match is a suffix of the scanned text. -/

theorem eatClose_suffix (l r : List Char) (h : eatClose l = some r) : r <:+ l := by
  unfold eatClose at h
  split at h
  · rename_i t
    injection h with h
    exact h ▸ List.suffix_cons ')' t
  · exact absurd h (by simp)

theorem eatNOTkw_suffix (l r : List Char) (h : eatNOTkw l = some r) : r <:+ l := by
  unfold eatNOTkw at h
  split at h
  · rename_i t heq
    injection h with h
    have h1 : t <:+ l.dropWhile isPySpace := by
      rw [heq]
      exact (List.suffix_cons 'T' t).trans
        ((List.suffix_cons 'O' ('T' :: t)).trans (List.suffix_cons 'N' ('O' :: 'T' :: t)))
    exact h ▸ h1.trans (dropWhile_suffix isPySpace l)
  · exact absurd h (by simp)

theorem eatOpenP_suffix (l r : List Char) (h : eatOpenP l = some r) : r <:+ l := by
  unfold eatOpenP at h
  split at h
  · rename_i t heq
    injection h with h
    have h1 : t <:+ l.dropWhile isPySpace := by
      rw [heq]
      exact List.suffix_cons '(' t
    exact h ▸ h1.trans (dropWhile_suffix isPySpace l)
  · exact absurd h (by simp)

theorem eatANDkw_suffix (l r : List Char) (h : eatANDkw l = some r) : r <:+ l := by
  unfold eatANDkw at h
  split at h
  · rename_i t
    injection h with h
    subst h
    exact (List.suffix_cons 'D' t).trans
      ((List.suffix_cons 'N' ('D' :: t)).trans (List.suffix_cons 'A' ('N' :: 'D' :: t)))
  · exact absurd h (by simp)

theorem eatWsPlus_suffix (l r : List Char) (h : eatWsPlus l = some r) : r <:+ l := by
  unfold eatWsPlus at h
  split at h
  · exact absurd h (by simp)
  · rename_i c t
    split at h
    · injection h with h
      subst h
      exact (dropWhile_suffix isPySpace t).trans (List.suffix_cons c t)
    · exact absurd h (by simp)

theorem eatNOTend_suffix (l r : List Char) (h : eatNOTend l = some r) : r <:+ l := by
  unfold eatNOTend at h
  split at h
  · rename_i t
    split at h
    · exact absurd h (by simp)
    · injection h with h
      exact h ▸ ((List.suffix_cons 'T' t).trans
        ((List.suffix_cons 'O' ('T' :: t)).trans (List.suffix_cons 'N' ('O' :: 'T' :: t))))
  · exact absurd h (by simp)

theorem matcher1_suffix (l r : List Char) (h : matcher1 l = some r) : r <:+ l := by
  unfold matcher1 at h
  cases h1 : eatClose l with
  | none => rw [h1] at h; exact absurd h (by simp)
  | some r1 =>
    rw [h1] at h
    simp only [Option.some_bind] at h
    cases h2 : eatNOTkw r1 with
    | none => rw [h2] at h; exact absurd h (by simp)
    | some r3 =>
      rw [h2] at h
      simp only [Option.some_bind] at h
      exact ((eatOpenP_suffix r3 r h).trans (eatNOTkw_suffix r1 r3 h2)).trans
        (eatClose_suffix l r1 h1)

theorem matcher2_suffix (l r : List Char) (h : matcher2 l = some r) : r <:+ l := by
  unfold matcher2 at h
  cases h1 : eatANDkw l with
  | none => rw [h1] at h; exact absurd h (by simp)
  | some r1 =>
    rw [h1] at h
    simp only [Option.some_bind] at h
    cases h2 : eatWsPlus r1 with
    | none => rw [h2] at h; exact absurd h (by simp)
    | some r2 =>
      rw [h2] at h
      simp only [Option.some_bind] at h
      cases h3 : eatANDkw r2 with
      | none => rw [h3] at h; exact absurd h (by simp)
      | some r3 =>
        rw [h3] at h
        simp only [Option.some_bind] at h
        cases h4 : eatWsPlus r3 with
        | none => rw [h4] at h; exact absurd h (by simp)
        | some r4 =>
          rw [h4] at h
          simp only [Option.some_bind] at h
          exact ((((eatNOTend_suffix r4 r h).trans (eatWsPlus_suffix r3 r4 h4)).trans
            (eatANDkw_suffix r2 r3 h3)).trans (eatWsPlus_suffix r1 r2 h2)).trans
            (eatANDkw_suffix l r1 h1)

/-! Nonemptiness and edge-character preservation for each stage. -/

theorem sub1Go_nil (fuel : Nat) : sub1Go fuel [] = [] := by cases fuel <;> rfl

theorem sub1Go_ne_nil (fuel : Nat) (l : List Char) (h : l ≠ []) : sub1Go fuel l ≠ [] := by
  cases fuel with
  | zero => exact h
  | succ fuel =>
    cases l with
    | nil => exact absurd rfl h
    | cons c rest =>
      rw [sub1Go]
      cases hm : matcher1 (c :: rest) with
      | some r => simp [repl1]
      | none => simp

theorem sub1Go_headNotWs (fuel : Nat) (l : List Char) (h : headNotWs l = true) :
    headNotWs (sub1Go fuel l) = true := by
  cases fuel with
  | zero => exact h
  | succ fuel =>
    cases l with
    | nil => rfl
    | cons c rest =>
      rw [sub1Go]
      cases hm : matcher1 (c :: rest) with
      | some r => rfl
      | none => exact h

theorem sub1Go_lastNotWs : ∀ (fuel : Nat) (l : List Char), lastNotWs l = true →
    lastNotWs (sub1Go fuel l) = true := by
  intro fuel
  induction fuel with
  | zero => intro l h; exact h
  | succ fuel ih =>
    intro l h
    cases l with
    | nil => rfl
    | cons c rest =>
      rw [sub1Go]
      cases hm : matcher1 (c :: rest) with
      | some r =>
        show lastNotWs (repl1 ++ sub1Go fuel r) = true
        by_cases hr : r = []
        · subst hr
          rw [sub1Go_nil, List.append_nil]
          rfl
        · have hsub : sub1Go fuel r ≠ [] := sub1Go_ne_nil fuel r hr
          rw [lastNotWs_append repl1 _ hsub]
          refine ih r ?_
          rw [lastNotWs_of_suffix (matcher1_suffix _ _ hm) hr]
          exact h
      | none =>
        show lastNotWs (c :: sub1Go fuel rest) = true
        by_cases hrest : rest = []
        · subst hrest
          rw [sub1Go_nil]
          exact h
        · have hsub : sub1Go fuel rest ≠ [] := sub1Go_ne_nil fuel rest hrest
          rw [lastNotWs_cons c _ hsub]
          refine ih rest ?_
          rw [← lastNotWs_cons c rest hrest]
          exact h

theorem sub2Go_nil (fuel : Nat) (prev : Option Char) : sub2Go fuel prev [] = [] := by
  cases fuel <;> rfl

theorem sub2Go_ne_nil (fuel : Nat) (prev : Option Char) (l : List Char) (h : l ≠ []) :
    sub2Go fuel prev l ≠ [] := by
  cases fuel with
  | zero => exact h
  | succ fuel =>
    cases l with
    | nil => exact absurd rfl h
    | cons c rest =>
      rw [sub2Go]
      by_cases hb : boundaryOk prev = true
      · rw [if_pos hb]
        cases hm : matcher2 (c :: rest) with
        | some r => simp [repl2]
        | none => simp
      · rw [if_neg hb]
        simp

theorem sub2Go_headNotWs (fuel : Nat) (prev : Option Char) (l : List Char)
    (h : headNotWs l = true) : headNotWs (sub2Go fuel prev l) = true := by
  cases fuel with
  | zero => exact h
  | succ fuel =>
    cases l with
    | nil => rfl
    | cons c rest =>
      rw [sub2Go]
      by_cases hb : boundaryOk prev = true
      · rw [if_pos hb]
        cases hm : matcher2 (c :: rest) with
        | some r => rfl
        | none => exact h
      · rw [if_neg hb]
        exact h

theorem sub2Go_lastNotWs : ∀ (fuel : Nat) (prev : Option Char) (l : List Char),
    lastNotWs l = true → lastNotWs (sub2Go fuel prev l) = true := by
  intro fuel
  induction fuel with
  | zero => intro prev l h; exact h
  | succ fuel ih =>
    intro prev l h
    cases l with
    | nil => rfl
    | cons c rest =>
      rw [sub2Go]
      by_cases hb : boundaryOk prev = true
      · rw [if_pos hb]
        cases hm : matcher2 (c :: rest) with
        | some r =>
          show lastNotWs (repl2 ++ sub2Go fuel (some 'T') r) = true
          by_cases hr : r = []
          · subst hr
            rw [sub2Go_nil, List.append_nil]
            rfl
          · have hsub : sub2Go fuel (some 'T') r ≠ [] := sub2Go_ne_nil fuel _ r hr
            rw [lastNotWs_append repl2 _ hsub]
            refine ih (some 'T') r ?_
            rw [lastNotWs_of_suffix (matcher2_suffix _ _ hm) hr]
            exact h
        | none =>
          show lastNotWs (c :: sub2Go fuel (some c) rest) = true
          by_cases hrest : rest = []
          · subst hrest
            rw [sub2Go_nil]
            exact h
          · have hsub : sub2Go fuel (some c) rest ≠ [] := sub2Go_ne_nil fuel _ rest hrest
            rw [lastNotWs_cons c _ hsub]
            refine ih (some c) rest ?_
            rw [← lastNotWs_cons c rest hrest]
            exact h
      · rw [if_neg hb]
        by_cases hrest : rest = []
        · subst hrest
          rw [sub2Go_nil]
          exact h
        · have hsub : sub2Go fuel (some c) rest ≠ [] := sub2Go_ne_nil fuel _ rest hrest
          rw [lastNotWs_cons c _ hsub]
          refine ih (some c) rest ?_
          rw [← lastNotWs_cons c rest hrest]
          exact h

theorem ampRepl_ne_nil (l : List Char) (h : l ≠ []) : ampRepl l ≠ [] := by
  cases l with
  | nil => exact absurd rfl h
  | cons c rest =>
    rw [ampRepl]
    by_cases hc : (c == '&') = true
    · rw [if_pos hc]; simp
    · rw [if_neg hc]; simp

theorem ampRepl_headNotWs (l : List Char) (h : headNotWs l = true) :
    headNotWs (ampRepl l) = true := by
  cases l with
  | nil => rfl
  | cons c rest =>
    rw [ampRepl]
    by_cases hc : (c == '&') = true
    · rw [if_pos hc]
      rfl
    · rw [if_neg hc]
      exact h

theorem ampRepl_lastNotWs : ∀ l : List Char, lastNotWs l = true →
    lastNotWs (ampRepl l) = true := by
  intro l
  induction l with
  | nil => intro _; rfl
  | cons c rest ih =>
    intro h
    rw [ampRepl]
    by_cases hrest : rest = []
    · subst hrest
      by_cases hc : (c == '&') = true
      · rw [if_pos hc]
        rfl
      · rw [if_neg hc]
        exact h
    · have hsub : ampRepl rest ≠ [] := ampRepl_ne_nil rest hrest
      have hlr : lastNotWs rest = true := by
        rw [← lastNotWs_cons c rest hrest]
        exact h
      by_cases hc : (c == '&') = true
      · rw [if_pos hc]
        rw [lastNotWs_cons 'a' _ (by simp), lastNotWs_cons 'n' _ (by simp),
          lastNotWs_cons 'd' _ hsub]
        exact ih hlr
      · rw [if_neg hc]
        rw [lastNotWs_cons c _ hsub]
        exact ih hlr

/-! Whitespace normal form: every whitespace character is a single space
not followed by whitespace.  `collapseWs` produces this form and is the
identity on it. -/

def wsNorm : List Char → Bool
  | [] => true
  | c :: rest => (!isPySpace c || (c == ' ' && headNotWs rest)) && wsNorm rest

theorem collapseGo_nil (fuel : Nat) : collapseGo fuel [] = [] := by cases fuel <;> rfl

theorem collapseGo_ne_nil (fuel : Nat) (l : List Char) (h : l ≠ []) :
    collapseGo fuel l ≠ [] := by
  cases fuel with
  | zero => exact h
  | succ fuel =>
    cases l with
    | nil => exact absurd rfl h
    | cons c rest =>
      rw [collapseGo]
      by_cases hc : isPySpace c = true
      · rw [if_pos hc]; simp
      · rw [if_neg hc]; simp

theorem collapseGo_headNotWs (fuel : Nat) (l : List Char) (h : headNotWs l = true) :
    headNotWs (collapseGo fuel l) = true := by
  cases fuel with
  | zero => exact h
  | succ fuel =>
    cases l with
    | nil => rfl
    | cons c rest =>
      have hc : isPySpace c = false := by
        have h' : (!isPySpace c) = true := h
        rwa [Bool.not_eq_true'] at h'
      rw [collapseGo, if_neg (by rw [hc]; exact Bool.false_ne_true)]
      exact h

theorem collapseGo_lastNotWs : ∀ (fuel : Nat) (l : List Char), lastNotWs l = true →
    lastNotWs (collapseGo fuel l) = true := by
  intro fuel
  induction fuel with
  | zero => intro l h; exact h
  | succ fuel ih =>
    intro l h
    cases l with
    | nil => rfl
    | cons c rest =>
      rw [collapseGo]
      by_cases hc : isPySpace c = true
      · rw [if_pos hc]
        have hrest : rest ≠ [] := by
          intro e
          subst e
          have h' : (!isPySpace c) = true := h
          rw [hc] at h'
          exact absurd h' (by simp)
        have hr : rest.dropWhile isPySpace ≠ [] := by
          intro e
          have hall := all_of_dropWhile_eq_nil rest e
          cases hd : lastOpt rest with
          | none => exact lastOpt_ne_none rest hrest hd
          | some d =>
            have hdws := hall d (lastOpt_mem rest d hd)
            have h' : lastNotWs rest = true := by
              rw [← lastNotWs_cons c rest hrest]
              exact h
            unfold lastNotWs at h'
            rw [hd] at h'
            have h'' : (!isPySpace d) = true := h'
            rw [hdws] at h''
            exact absurd h'' (by simp)
        have hout : collapseGo fuel (rest.dropWhile isPySpace) ≠ [] :=
          collapseGo_ne_nil fuel _ hr
        rw [lastNotWs_cons ' ' _ hout]
        refine ih _ ?_
        rw [lastNotWs_of_suffix (dropWhile_suffix isPySpace rest) hr,
          ← lastNotWs_cons c rest hrest]
        exact h
      · rw [if_neg hc]
        by_cases hrest : rest = []
        · subst hrest
          rw [collapseGo_nil]
          exact h
        · have hout : collapseGo fuel rest ≠ [] := collapseGo_ne_nil fuel rest hrest
          rw [lastNotWs_cons c _ hout]
          refine ih rest ?_
          rw [← lastNotWs_cons c rest hrest]
          exact h

theorem collapseGo_wsNorm : ∀ (fuel : Nat) (l : List Char), l.length ≤ fuel →
    wsNorm (collapseGo fuel l) = true := by
  intro fuel
  induction fuel with
  | zero =>
    intro l h
    have : l = [] := List.eq_nil_of_length_eq_zero (Nat.le_zero.mp h)
    subst this
    rfl
  | succ fuel ih =>
    intro l h
    cases l with
    | nil => rfl
    | cons c rest =>
      rw [List.length_cons, Nat.succ_le_succ_iff] at h
      rw [collapseGo]
      by_cases hc : isPySpace c = true
      · rw [if_pos hc]
        rw [wsNorm, Bool.and_eq_true]
        constructor
        · have hhead : headNotWs (collapseGo fuel (rest.dropWhile isPySpace)) = true :=
            collapseGo_headNotWs fuel _ (dropWhile_headNotWs rest)
          simp [hhead]
        · exact ih _ (le_trans (length_dropWhile_le _ rest) h)
      · rw [if_neg hc]
        rw [wsNorm, Bool.and_eq_true]
        constructor
        · simp [hc]
        · exact ih rest h

theorem collapseGo_id : ∀ (l : List Char) (fuel : Nat), wsNorm l = true →
    collapseGo fuel l = l := by
  intro l
  induction l with
  | nil => intro fuel _; cases fuel <;> rfl
  | cons c rest ih =>
    intro fuel h
    rw [wsNorm, Bool.and_eq_true] at h
    cases fuel with
    | zero => rfl
    | succ fuel =>
      rw [collapseGo]
      by_cases hc : isPySpace c = true
      · rw [if_pos hc]
        have h1 := h.1
        rw [hc] at h1
        simp only [Bool.not_true, Bool.false_or, Bool.and_eq_true, beq_iff_eq] at h1
        rw [dropWhile_eq_self_of_headNotWs rest h1.2, ih fuel h.2, h1.1]
      · rw [if_neg hc, ih fuel h.2]

/-- C4 amended: applying the sanitizer twice yields the same output as
applying it once for every input whose once-sanitized text contains no
residual `\)\s*NOT\s*\(` or `\bAND\s+AND\s+NOT\b` pattern.  This proviso
is necessary: the `AND AND NOT` collapsing rewrite can re-trigger on its
own output (counterexample `"AND AND AND NOT"`), so the sanitizer is not
idempotent in general. -/
theorem sanitize_idempotent_amended (q : String)
    (h1 : hasMatch1 (sanitize_boolean_query q).data = false)
    (h2 : hasMatch2 (sanitize_boolean_query q).data = false) :
    sanitize_boolean_query (sanitize_boolean_query q) = sanitize_boolean_query q := by
  have hh0 : headNotWs (pyStripL q.data) = true := pyStripL_headNotWs q.data
  have hl0 : lastNotWs (pyStripL q.data) = true := pyStripL_lastNotWs q.data
  have hh1 : headNotWs (sub1 (pyStripL q.data)) = true :=
    sub1Go_headNotWs (pyStripL q.data).length _ hh0
  have hl1 : lastNotWs (sub1 (pyStripL q.data)) = true :=
    sub1Go_lastNotWs (pyStripL q.data).length _ hl0
  have hh2 : headNotWs (sub2 (sub1 (pyStripL q.data))) = true :=
    sub2Go_headNotWs (sub1 (pyStripL q.data)).length none _ hh1
  have hl2 : lastNotWs (sub2 (sub1 (pyStripL q.data))) = true :=
    sub2Go_lastNotWs (sub1 (pyStripL q.data)).length none _ hl1
  have hh3 : headNotWs (ampRepl (sub2 (sub1 (pyStripL q.data)))) = true :=
    ampRepl_headNotWs _ hh2
  have hl3 : lastNotWs (ampRepl (sub2 (sub1 (pyStripL q.data)))) = true :=
    ampRepl_lastNotWs _ hl2
  have hhs : headNotWs (sanitize_boolean_query q).data = true :=
    collapseGo_headNotWs (ampRepl (sub2 (sub1 (pyStripL q.data)))).length _ hh3
  have hls : lastNotWs (sanitize_boolean_query q).data = true :=
    collapseGo_lastNotWs (ampRepl (sub2 (sub1 (pyStripL q.data)))).length _ hl3
  have hamp : hasAmp (sanitize_boolean_query q).data = false :=
    collapseGo_no_amp (ampRepl (sub2 (sub1 (pyStripL q.data)))).length _ (ampRepl_no_amp _)
  have hnorm : wsNorm (sanitize_boolean_query q).data = true :=
    collapseGo_wsNorm (ampRepl (sub2 (sub1 (pyStripL q.data)))).length _ (Nat.le_refl _)
  have e1 : pyStripL (sanitize_boolean_query q).data = (sanitize_boolean_query q).data :=
    pyStripL_id _ hhs hls
  have e2 : sub1 (sanitize_boolean_query q).data = (sanitize_boolean_query q).data :=
    sub1Go_id _ _ h1
  have e3 : sub2 (sanitize_boolean_query q).data = (sanitize_boolean_query q).data :=
    sub2Go_id _ _ none h2
  have e4 : ampRepl (sanitize_boolean_query q).data = (sanitize_boolean_query q).data :=
    ampRepl_id _ hamp
  have e5 : collapseWs (sanitize_boolean_query q).data = (sanitize_boolean_query q).data :=
    collapseGo_id _ _ hnorm
  show String.mk
      (collapseWs (ampRepl (sub2 (sub1 (pyStripL (sanitize_boolean_query q).data)))))
    = sanitize_boolean_query q
  rw [e1, e2, e3, e4, e5]

/-- Witness for C4's amended theorem: a query exercising the `) NOT (`
and `&` rewrites whose sanitized form has no residual pattern. -/
theorem sanitize_idempotent_amended_witness :
    sanitize_boolean_query (sanitize_boolean_query "(a) NOT (b) & c")
      = sanitize_boolean_query "(a) NOT (b) & c" :=
  sanitize_idempotent_amended "(a) NOT (b) & c" (by decide) (by decide)

end LeonarScoring
